import Mathlib

/-!
Verification of the electricity-prices-app frontend logic.

This file gives a shallow embedding of the pure computations of the
repository's frontend:

* the data model of `src/frontend/src/types/api.ts`;
* `calculateStats` of the day-summary table component;
* `prepareChartData`, `createHourPriceMap`, `getAllHourLabels`,
  `sortHourLabelsChronologically` and `getSortableHourValue` of
  `src/frontend/src/App.tsx`;
* `formatDate`, `getPreviousDay`, `getNextDay` of the date utilities.

Modelling conventions, used throughout:

* JavaScript `number` values holding prices are modelled as `ℚ` with exact
  arithmetic; every concrete price in the claims is exactly representable.
* `null` / absent values are modelled as `none : Option _`.
* JavaScript strings are Lean `String`s, manipulated through their `data`
  character list.
* `Number.prototype.toFixed(2)` produces a decimal string; we model the
  rational value denoted by that string (`toFixed2`), and the `'—'`
  placeholder the table shows for an empty price set as `none`.
* A JavaScript `Map` built from a list of key/value pairs is modelled as the
  entry list itself; lookup returns the value of the last entry with the
  given key, as `Map` construction overwrites earlier duplicates.
* `Array.prototype.sort` (ES2019+) is a stable sort; with the consistent
  comparator the code uses on well-formed labels its output is the unique
  stable order, modelled by a stable insertion sort on the comparator.
* A JavaScript `Date` is its timestamp; we use minutes (all values involved
  are whole minutes) counted from 0000-01-01T00:00Z in the proleptic
  Gregorian calendar, the calendar prescribed by ECMA-262.  The host
  environment's local timezone, which `getDate`/`setDate` consult, is an
  explicit parameter (`JsTz`).
-/

/-! ## Exact decimal rounding

`qfloor` is the floor of a rational, computed with `Int.fdiv` so that it
reduces in the kernel.  `toFixed2 x` is the rational value of the string
`x.toFixed(2)`: ECMA-262 `Number.prototype.toFixed` picks the integer `n`
minimising `|n / 10^2 - x|`, preferring the larger `n` on a tie, i.e.
`⌊100 x + 1/2⌋ / 100`. -/

def qfloor (x : ℚ) : ℤ := x.num.fdiv x.den

def toFixed2 (x : ℚ) : ℚ := (qfloor (x * 100 + 1 / 2) : ℚ) / 100

/-! ## Data model (src/frontend/src/types/api.ts) -/

structure HourData where
  timestamp_ms : ℤ
  hour_label : String
  price_eur_mwh : Option ℚ
  price_ct_kwh : Option ℚ
  is_missing : Bool
  is_dst_transition : Bool
deriving DecidableEq

structure DayData where
  date : String
  hours : List HourData
deriving DecidableEq

structure ApiResponse where
  previous_day : DayData
  selected_day : DayData
  next_day : DayData
deriving DecidableEq

structure ChartDataPoint where
  time : String
  previous : Option ℚ
  selected : Option ℚ
  next : Option ℚ
deriving DecidableEq

/-! ## Day statistics (`calculateStats` in the day-summary table component)

```ts
const calculateStats = (dayData: { date: string; hours: any[] }) => {
  const prices = dayData.hours
    .filter(h => !h.is_missing && h.price_eur_mwh != null)
    .map(h => h.price_eur_mwh as number);
  return {
    avg: prices.length ? (prices.reduce((a, b) => a + b, 0) / prices.length).toFixed(2) : '—',
    min: prices.length ? Math.min(...prices).toFixed(2) : '—',
    max: prices.length ? Math.max(...prices).toFixed(2) : '—',
    missing: dayData.hours.filter(h => h.is_missing).length,
    dst: dayData.hours.some(h => h.is_dst_transition) ? 'Yes' : 'No',
  };
};
```

`avg`/`min`/`max` are display strings: `'—'` is modelled as `none`, a
`toFixed(2)` result as `some` of its rational value.  `Math.min`/`Math.max`
of a spread non-empty list are the least/greatest element, `List.min?` /
`List.max?`; the `prices.length` guard makes the empty case (`Infinity` /
`-Infinity`) unreachable.  `'Yes'`/`'No'` is modelled as a `Bool`. -/

structure JsDayStats where
  avg : Option ℚ
  min : Option ℚ
  max : Option ℚ
  missing : ℕ
  dst : Bool
deriving DecidableEq

def calculateStats (dayData : DayData) : JsDayStats :=
  let prices := (dayData.hours.filter
      (fun h => !h.is_missing && h.price_eur_mwh.isSome)).map
      (fun h => h.price_eur_mwh.getD 0)
  { avg := if prices.length ≠ 0 then
        some (toFixed2 ((prices.foldl (· + ·) 0) / (prices.length : ℚ)))
      else none
    min := if prices.length ≠ 0 then prices.min?.map toFixed2 else none
    max := if prices.length ≠ 0 then prices.max?.map toFixed2 else none
    missing := (dayData.hours.filter (fun h => h.is_missing)).length
    dst := dayData.hours.any (fun h => h.is_dst_transition) }

/-- The `price_eur_mwh` values of the non-missing slots of a grid, in grid
order.  This is the set of values the specification's Day Aggregator is
defined over. -/
def nonMissingPrices (d : DayData) : List ℚ :=
  (d.hours.filter (fun h => !h.is_missing)).filterMap (fun h => h.price_eur_mwh)

/-- A grid with the data-model invariant of §3 of the specification: a
non-missing slot carries a (non-null) price. -/
def WellFormedGrid (d : DayData) : Prop :=
  ∀ h ∈ d.hours, h.is_missing = false → h.price_eur_mwh ≠ none

instance (d : DayData) : Decidable (WellFormedGrid d) := by
  unfold WellFormedGrid; infer_instance

/-- Under the data-model invariant, the price list `calculateStats` filters
out of the grid is exactly the list of non-missing prices. -/
theorem calc_prices_eq_nonMissingPrices (l : List HourData)
    (hinv : ∀ h ∈ l, h.is_missing = false → h.price_eur_mwh ≠ none) :
    (l.filter (fun h => !h.is_missing && h.price_eur_mwh.isSome)).map
      (fun h => h.price_eur_mwh.getD 0) =
    (l.filter (fun h => !h.is_missing)).filterMap (fun h => h.price_eur_mwh) := by
  induction l with
  | nil => rfl
  | cons h t ih =>
    have ih' := ih (fun x hx => hinv x (List.mem_cons_of_mem _ hx))
    by_cases hm : h.is_missing
    · simpa [List.filter_cons, hm] using ih'
    · have hm' : h.is_missing = false := by simpa using hm
      have hp : h.price_eur_mwh ≠ none := hinv h (List.mem_cons_self _ _) hm'
      obtain ⟨v, hv⟩ := Option.ne_none_iff_exists'.mp hp
      simp [List.filter_cons, hm', hv, ih']

/-- Folding `+` from `0` over a price list is its sum (`prices.reduce((a, b) => a + b, 0)`). -/
theorem foldl_add_eq_sum (l : List ℚ) (a : ℚ) : l.foldl (· + ·) a = a + l.sum := by
  induction l generalizing a with
  | nil => simp
  | cons x t ih => simp [ih, add_assoc]

/-- **C2.** For every day grid satisfying the §3 data-model invariant, the
computed statistics have: `avg` equal to the arithmetic mean of
`price_eur_mwh` over the non-missing slots (`none`, the `'—'` placeholder,
when there are zero non-missing slots), and `min`/`max` equal to the signed
least/greatest price over that same set — each up to the two-decimal
display rounding `toFixed(2)` that the table applies.  The final two
conjuncts record that `List.min?`/`List.max?` really are the signed
minimum/maximum of that set under the order of `ℚ`: a member that is
`≤` (resp. `≥`) every member, with no absolute-value or floor-at-zero
behaviour. -/
theorem claim_C2 (d : DayData) (hinv : WellFormedGrid d) :
    ((calculateStats d).avg =
       if nonMissingPrices d = [] then none
       else some (toFixed2 ((nonMissingPrices d).sum / ((nonMissingPrices d).length : ℚ))))
    ∧ (calculateStats d).min = ((nonMissingPrices d).min?).map toFixed2
    ∧ (calculateStats d).max = ((nonMissingPrices d).max?).map toFixed2
    ∧ (∀ m, (nonMissingPrices d).min? = some m →
        m ∈ nonMissingPrices d ∧ ∀ x ∈ nonMissingPrices d, m ≤ x)
    ∧ (∀ m, (nonMissingPrices d).max? = some m →
        m ∈ nonMissingPrices d ∧ ∀ x ∈ nonMissingPrices d, x ≤ m) := by
  have hpr := calc_prices_eq_nonMissingPrices d.hours hinv
  have hnm : nonMissingPrices d =
      (d.hours.filter (fun h => !h.is_missing)).filterMap (fun h => h.price_eur_mwh) := rfl
  rw [← hnm] at hpr
  haveI : Std.Antisymm ((· : ℚ) ≤ ·) := ⟨fun hab hba => le_antisymm hab hba⟩
  refine ⟨?_, ?_, ?_, ?_, ?_⟩
  · simp only [calculateStats, hpr]
    by_cases hemp : nonMissingPrices d = []
    · simp [hemp]
    · have hlen : (nonMissingPrices d).length ≠ 0 := by
        simpa [List.length_eq_zero] using hemp
      simp [hemp, hlen, foldl_add_eq_sum]
  · simp only [calculateStats, hpr]
    by_cases hemp : nonMissingPrices d = []
    · simp [hemp]
    · have hlen : (nonMissingPrices d).length ≠ 0 := by
        simpa [List.length_eq_zero] using hemp
      simp [hlen]
  · simp only [calculateStats, hpr]
    by_cases hemp : nonMissingPrices d = []
    · simp [hemp]
    · have hlen : (nonMissingPrices d).length ≠ 0 := by
        simpa [List.length_eq_zero] using hemp
      simp [hlen]
  · intro m hm
    have := (List.min?_eq_some_iff (fun a : ℚ => le_refl a)
      (fun a b : ℚ => min_choice a b)
      (fun a b c : ℚ => le_min_iff)).mp hm
    exact ⟨this.1, fun x hx => this.2 x hx⟩
  · intro m hm
    have := (List.max?_eq_some_iff (fun a : ℚ => le_refl a)
      (fun a b : ℚ => max_choice a b)
      (fun a b c : ℚ => max_le_iff)).mp hm
    exact ⟨this.1, fun x hx => this.2 x hx⟩

/-- Concrete grid from §8 of the specification: non-missing prices
`[-5.0, 10.0, 20.0]` plus one remaining missing slot. -/
def c8Grid : DayData :=
  ⟨"2025-01-15",
    [⟨1736899200000, "00:00", some (-5), some (-1/2), false, false⟩,
     ⟨1736902800000, "01:00", some 10, some 1, false, false⟩,
     ⟨1736906400000, "02:00", some 20, some 2, false, false⟩,
     ⟨1736910000000, "03:00", none, none, true, false⟩]⟩

unseal Rat.add Rat.mul Rat.inv Rat.sub in
/-- Witness for `claim_C2`: the invariant holds of `c8Grid`, and the theorem
applied there yields the signed minimum `-5`. -/
theorem claim_C2_witness :
    WellFormedGrid c8Grid ∧ (calculateStats c8Grid).min = some (-5) :=
  ⟨by decide, ((claim_C2 c8Grid (by decide)).2.1).trans (by decide)⟩

/-- **C5.** The statistics computation is a pure total Lean function (hence
never fails or throws); on a grid with zero non-missing slots it yields the
all-`none` (all-placeholder) statistics rather than an error. -/
theorem claim_C5 (d : DayData) (hall : ∀ h ∈ d.hours, h.is_missing = true) :
    (calculateStats d).avg = none ∧ (calculateStats d).min = none ∧
      (calculateStats d).max = none := by
  have hfil : d.hours.filter (fun h => !h.is_missing && h.price_eur_mwh.isSome) = [] := by
    rw [List.filter_eq_nil_iff]
    intro h hm
    simp [hall h hm]
  refine ⟨?_, ?_, ?_⟩ <;> simp [calculateStats, hfil]

/-- All-missing grid used to instantiate `claim_C5`. -/
def allMissingGrid : DayData :=
  ⟨"2026-01-01",
    [⟨1767225600000, "00:00", none, none, true, false⟩,
     ⟨1767229200000, "01:00", none, none, true, false⟩]⟩

/-- Witness for `claim_C5` on a concrete fully-missing grid. -/
theorem claim_C5_witness :
    (∀ h ∈ allMissingGrid.hours, h.is_missing = true) ∧
      (calculateStats allMissingGrid).avg = none :=
  ⟨by decide, (claim_C5 allMissingGrid (by decide)).1⟩

/-- **C7.** For every day grid, the reported `missing` statistic is exactly
the number of hour slots whose `is_missing` flag is true. -/
theorem claim_C7 (d : DayData) :
    (calculateStats d).missing = d.hours.countP (fun h => h.is_missing) := by
  simp [calculateStats, List.countP_eq_length_filter]

unseal Rat.add Rat.mul Rat.inv Rat.sub in
/-- **C8.** On the grid whose non-missing prices are exactly
`[-5.0, 10.0, 20.0]` (one slot remaining missing): average `8.33` under
two-decimal display rounding, minimum `-5.0`, maximum `20.0`, and missing
count `1`. -/
theorem claim_C8 : calculateStats c8Grid =
    { avg := some (833 / 100), min := some (-5), max := some 20,
      missing := 1, dst := false } := by
  decide

/-- A grid with every malformed slot — `is_missing = false` yet a null
`price_eur_mwh`, violating the §3 invariant — removed. -/
def dropMalformed (d : DayData) : DayData :=
  ⟨d.date, d.hours.filter (fun h => h.is_missing || h.price_eur_mwh.isSome)⟩

/-- **C10.** `calculateStats` is robust to slots violating the data-model
invariant: a slot with `is_missing = false` but a null price contributes
neither to `avg`/`min`/`max` nor to the missing count, so the statistics of
any grid equal those of the grid with all malformed slots removed.  (No
`NaN` can appear — prices are exact rationals and the empty case is
guarded — and the function is total, so no exception is possible.) -/
theorem claim_C10 (d : DayData) :
    (calculateStats d).avg = (calculateStats (dropMalformed d)).avg
    ∧ (calculateStats d).min = (calculateStats (dropMalformed d)).min
    ∧ (calculateStats d).max = (calculateStats (dropMalformed d)).max
    ∧ (calculateStats d).missing = (calculateStats (dropMalformed d)).missing := by
  have hpr : (dropMalformed d).hours.filter
      (fun h => !h.is_missing && h.price_eur_mwh.isSome) =
      d.hours.filter (fun h => !h.is_missing && h.price_eur_mwh.isSome) := by
    show (d.hours.filter _).filter _ = _
    rw [List.filter_filter]
    apply List.filter_congr
    intro h _
    cases hm : h.is_missing <;> cases hs : h.price_eur_mwh.isSome <;> simp [hm, hs]
  have hmi : (dropMalformed d).hours.filter (fun h => h.is_missing) =
      d.hours.filter (fun h => h.is_missing) := by
    show (d.hours.filter _).filter _ = _
    rw [List.filter_filter]
    apply List.filter_congr
    intro h _
    cases hm : h.is_missing <;> simp [hm]
  refine ⟨?_, ?_, ?_, ?_⟩ <;> simp [calculateStats, hpr, hmi]

/-! ## JavaScript string primitives used by `getSortableHourValue`

`parseInt(s, 10)` takes the longest leading run of decimal digits (after an
optional sign) and returns `NaN` — modelled as `none` — if there is none;
trailing non-digits such as `":00"` are ignored.  `String.prototype.replace`
with the one-character string pattern `'A'` removes the first occurrence of
that character; `String.prototype.includes('A')` tests whether the character
occurs. -/

def digitVal (c : Char) : ℤ := (c.toNat : ℤ) - 48

def leadingDigits (cs : List Char) : List Char := cs.takeWhile Char.isDigit

def digitsVal (cs : List Char) : ℤ := cs.foldl (fun acc c => 10 * acc + digitVal c) 0

def jsParseInt (s : String) : Option ℤ :=
  match s.data with
  | [] => none
  | c :: rest =>
    if c = '-' then
      if leadingDigits rest ≠ [] then some (-(digitsVal (leadingDigits rest))) else none
    else if c = '+' then
      if leadingDigits rest ≠ [] then some (digitsVal (leadingDigits rest)) else none
    else
      if leadingDigits (c :: rest) ≠ [] then some (digitsVal (leadingDigits (c :: rest)))
      else none

def jsRemoveFirst (c : Char) : List Char → List Char
  | [] => []
  | x :: t => if x = c then t else x :: jsRemoveFirst c t

def jsReplaceFirst (s : String) (c : Char) : String := String.mk (jsRemoveFirst c s.data)

def jsIncludes (s : String) (c : Char) : Bool := decide (c ∈ s.data)

/-! ## Hour-label sorting (src/frontend/src/App.tsx)

```ts
const getSortableHourValue = (hourLabel: string): number => {
  if (hourLabel.includes('A')) { return parseInt(hourLabel.replace('A', ''), 10) + 0.1; }
  if (hourLabel.includes('B')) { return parseInt(hourLabel.replace('B', ''), 10) + 0.2; }
  return parseInt(hourLabel, 10);
};
```

The float additions `+ 0.1` / `+ 0.2` only disambiguate integers, so the
order of the resulting float values coincides with the order of the exact
rationals `v + 1/10` / `v + 2/10`; we use the rationals.  `none` models
`NaN`. -/

def getSortableHourValue (hourLabel : String) : Option ℚ :=
  if jsIncludes hourLabel 'A' then
    (jsParseInt (jsReplaceFirst hourLabel 'A')).map (fun v => (v : ℚ) + 1 / 10)
  else if jsIncludes hourLabel 'B' then
    (jsParseInt (jsReplaceFirst hourLabel 'B')).map (fun v => (v : ℚ) + 2 / 10)
  else
    (jsParseInt hourLabel).map (fun v => (v : ℚ))

/-- The comparator `(a, b) => getSortableHourValue(a) - getSortableHourValue(b)`
as a boolean "sorts-no-later-than" relation: the comparator result is `≤ 0`.
ECMA-262 `SortCompare` treats a `NaN` comparator result as `+0`, i.e. as
"equal", whence `true` when either value is `NaN`. -/
def labelLe (a b : String) : Bool :=
  match getSortableHourValue a, getSortableHourValue b with
  | some x, some y => decide (x ≤ y)
  | _, _ => true

/-- Stable insertion of `a` into `l`: `a` is placed before the first element
it sorts-no-later-than. -/
def jsOrderedInsert (le : α → α → Bool) (a : α) : List α → List α
  | [] => [a]
  | b :: l => if le a b then a :: b :: l else b :: jsOrderedInsert le a l

/-- `Array.prototype.sort` (ES2019+) is stable; for a consistent comparator
its output is the unique stable order, which this right-fold insertion sort
produces.  `claim_C6` proves the modelled output is the only sorted, stable
arrangement, so this choice loses no generality. -/
def jsStableSort (le : α → α → Bool) : List α → List α
  | [] => []
  | a :: l => jsOrderedInsert le a (jsStableSort le l)

def sortHourLabelsChronologically (labels : List String) : List String :=
  jsStableSort labelLe labels

/-! ## Chart data preparation (src/frontend/src/App.tsx) -/

/-- `new Set(...)` keeps the first occurrence of each element, in insertion
order; `seen` accumulates the elements already emitted. -/
def jsSetAux [DecidableEq α] (seen : List α) : List α → List α
  | [] => []
  | a :: l => if a ∈ seen then jsSetAux seen l else a :: jsSetAux (a :: seen) l

def jsSetOfList [DecidableEq α] (l : List α) : List α := jsSetAux [] l

/-- `getAllHourLabels`: the distinct hour labels of the three grids, selected
day first, in insertion order. -/
def getAllHourLabels (apiData : ApiResponse) : List String :=
  jsSetOfList (apiData.selected_day.hours.map (fun h => h.hour_label)
    ++ apiData.previous_day.hours.map (fun h => h.hour_label)
    ++ apiData.next_day.hours.map (fun h => h.hour_label))

/-- `createHourPriceMap`: the `Map` entry list `[hour_label, is_missing ? null : price]`. -/
def createHourPriceMap (hours : List HourData) : List (String × Option ℚ) :=
  hours.map (fun hour => (hour.hour_label, if hour.is_missing then none else hour.price_eur_mwh))

/-- `Map.prototype.get`: the value of the last entry with the given key
(later duplicate keys overwrite earlier ones at construction), `none` when
the key is absent (`undefined`). -/
def jsMapGet (entries : List (String × Option ℚ)) (k : String) : Option (Option ℚ) :=
  (entries.reverse.find? (fun e => decide (e.1 = k))).map (fun e => e.2)

/-- `prepareChartData`; the `?? null` on absent keys is `Option.getD none`. -/
def prepareChartData (data : Option ApiResponse) : List ChartDataPoint :=
  match data with
  | none => []
  | some data =>
    let selectedDayMap := createHourPriceMap data.selected_day.hours
    let previousDayMap := createHourPriceMap data.previous_day.hours
    let nextDayMap := createHourPriceMap data.next_day.hours
    let sortedLabels := sortHourLabelsChronologically (getAllHourLabels data)
    sortedLabels.map (fun label =>
      { time := label
        selected := (jsMapGet selectedDayMap label).getD none
        previous := (jsMapGet previousDayMap label).getD none
        next := (jsMapGet nextDayMap label).getD none })

/-! ## Well-formed hour labels

The backend producing `hour_label` is not part of `src/`. -/

def twoDigits (n : ℕ) : List Char := [Nat.digitChar (n / 10), Nat.digitChar (n % 10)]

/-- Modelled from the spec: the backend Grid Builder (not in `src/`) labels a
slot with the local wall-clock hour-of-day as `"HH:MM"`, suffixed `A`/`B`
only on the repeated fall-back hour (§3, §4.2 of the specification). -/
def mkLabel (hh mm : ℕ) (suffix : String) : String :=
  String.mk (twoDigits hh ++ ':' :: twoDigits mm ++ suffix.data)

/-- A well-formed hour label: `"HH:MM"` with `HH < 24`, `MM < 60`, and an
optional `A`/`B` suffix. -/
def IsHourLabel (l : String) : Prop :=
  ∃ hh mm : ℕ, ∃ suffix : String, hh < 24 ∧ mm < 60 ∧
    (suffix = "" ∨ suffix = "A" ∨ suffix = "B") ∧ l = mkLabel hh mm suffix

instance : DecidablePred IsHourLabel := fun l =>
  decidable_of_iff (∃ hh : Fin 24, ∃ mm : Fin 60, ∃ s : Fin 3,
    l = mkLabel hh.1 mm.1 (["", "A", "B"].get s)) (by
      constructor
      · rintro ⟨hh, mm, s, rfl⟩
        refine ⟨hh.1, mm.1, ["", "A", "B"].get s, hh.2, mm.2, ?_, rfl⟩
        match s with
        | ⟨0, _⟩ => exact Or.inl rfl
        | ⟨1, _⟩ => exact Or.inr (Or.inl rfl)
        | ⟨2, _⟩ => exact Or.inr (Or.inr rfl)
      · rintro ⟨hh, mm, suffix, h24, h60, hs, rfl⟩
        rcases hs with rfl | rfl | rfl
        · exact ⟨⟨hh, h24⟩, ⟨mm, h60⟩, ⟨0, by omega⟩, rfl⟩
        · exact ⟨⟨hh, h24⟩, ⟨mm, h60⟩, ⟨1, by omega⟩, rfl⟩
        · exact ⟨⟨hh, h24⟩, ⟨mm, h60⟩, ⟨2, by omega⟩, rfl⟩)

/-- The wall-clock hour a well-formed label denotes: the value of its first
two (digit) characters. -/
def specHour (l : String) : ℕ :=
  match l.data with
  | c1 :: c2 :: _ => 10 * (c1.toNat - 48) + (c2.toNat - 48)
  | _ => 0

/-! ## Generic facts about the stable insertion sort -/

theorem jsOrderedInsert_perm (le : α → α → Bool) (a : α) (l : List α) :
    List.Perm (jsOrderedInsert le a l) (a :: l) := by
  induction l with
  | nil => rfl
  | cons b t ih =>
    by_cases h : le a b
    · simp [jsOrderedInsert, h]
    · simp only [jsOrderedInsert, h, Bool.false_eq_true, if_false]
      exact (ih.cons b).trans (List.Perm.swap a b t)

theorem jsStableSort_perm (le : α → α → Bool) (l : List α) :
    List.Perm (jsStableSort le l) l := by
  induction l with
  | nil => rfl
  | cons a t ih => exact (jsOrderedInsert_perm le a _).trans (ih.cons a)

theorem jsOrderedInsert_congr (le₁ le₂ : α → α → Bool) (a : α) (l : List α)
    (h : ∀ x ∈ l, le₁ a x = le₂ a x) : jsOrderedInsert le₁ a l = jsOrderedInsert le₂ a l := by
  induction l with
  | nil => rfl
  | cons b t ih =>
    have hb := h b (List.mem_cons_self b t)
    have ih' := ih (fun x hx => h x (List.mem_cons_of_mem _ hx))
    simp only [jsOrderedInsert, hb, ih']

theorem jsStableSort_congr (le₁ le₂ : α → α → Bool) (l : List α)
    (h : ∀ a ∈ l, ∀ b ∈ l, le₁ a b = le₂ a b) : jsStableSort le₁ l = jsStableSort le₂ l := by
  induction l with
  | nil => rfl
  | cons a t ih =>
    have ih' := ih (fun x hx y hy =>
      h x (List.mem_cons_of_mem _ hx) y (List.mem_cons_of_mem _ hy))
    simp only [jsStableSort, ih']
    apply jsOrderedInsert_congr
    intro x hx
    have hx' : x ∈ t := ((jsStableSort_perm le₂ t).mem_iff).mp hx
    exact h a (List.mem_cons_self a t) x (List.mem_cons_of_mem _ hx')

/-- The boolean "sorts-no-later-than" relation induced by a total rational
key function. -/
def keyLe (key : α → ℚ) (a b : α) : Bool := decide (key a ≤ key b)

theorem jsOrderedInsert_keyLe_sorted (key : α → ℚ) (a : α) (l : List α)
    (hl : l.Pairwise (fun x y => key x ≤ key y)) :
    (jsOrderedInsert (keyLe key) a l).Pairwise (fun x y => key x ≤ key y) := by
  induction l with
  | nil => simp [jsOrderedInsert]
  | cons b t ih =>
    rcases List.pairwise_cons.mp hl with ⟨hb, ht⟩
    by_cases hab : key a ≤ key b
    · have h1 : keyLe key a b = true := decide_eq_true hab
      simp only [jsOrderedInsert, h1, if_true]
      refine List.pairwise_cons.mpr ⟨?_, hl⟩
      intro y hy
      rcases List.mem_cons.mp hy with rfl | hy'
      · exact hab
      · exact hab.trans (hb y hy')
    · have h1 : keyLe key a b = false := by simp [keyLe, hab]
      simp only [jsOrderedInsert, h1, Bool.false_eq_true, if_false]
      refine List.pairwise_cons.mpr ⟨?_, ih ht⟩
      intro y hy
      have hy' : y = a ∨ y ∈ t := by
        have := (jsOrderedInsert_perm (keyLe key) a t).mem_iff.mp hy
        simpa using this
      rcases hy' with rfl | hy'
      · exact le_of_lt (lt_of_not_le hab)
      · exact hb y hy'

theorem jsStableSort_keyLe_sorted (key : α → ℚ) (l : List α) :
    (jsStableSort (keyLe key) l).Pairwise (fun x y => key x ≤ key y) := by
  induction l with
  | nil => simp [jsStableSort]
  | cons a t ih => exact jsOrderedInsert_keyLe_sorted key a _ ih

theorem jsOrderedInsert_keyLe_filter (key : α → ℚ) (k : ℚ) (a : α) (l : List α) :
    (jsOrderedInsert (keyLe key) a l).filter (fun x => decide (key x = k)) =
      if key a = k then a :: l.filter (fun x => decide (key x = k))
      else l.filter (fun x => decide (key x = k)) := by
  induction l with
  | nil => by_cases h : key a = k <;> simp [jsOrderedInsert, h]
  | cons b t ih =>
    by_cases hab : key a ≤ key b
    · have h1 : keyLe key a b = true := decide_eq_true hab
      by_cases h : key a = k <;>
        simp [jsOrderedInsert, h1, h, List.filter_cons]
    · have h1 : keyLe key a b = false := by simp [keyLe, hab]
      have hba : key b < key a := lt_of_not_le hab
      simp only [jsOrderedInsert, h1, Bool.false_eq_true, if_false]
      by_cases hbk : key b = k
      · have hak : ¬(key a = k) := by
          intro h
          rw [h, ← hbk] at hba
          exact lt_irrefl _ hba
        simp [List.filter_cons, hbk, ih, hak]
      · by_cases hak : key a = k <;> simp [List.filter_cons, hbk, ih, hak]

theorem jsStableSort_keyLe_filter (key : α → ℚ) (k : ℚ) (l : List α) :
    (jsStableSort (keyLe key) l).filter (fun x => decide (key x = k)) =
      l.filter (fun x => decide (key x = k)) := by
  induction l with
  | nil => rfl
  | cons a t ih =>
    by_cases h : key a = k <;>
      simp [jsStableSort, jsOrderedInsert_keyLe_filter, h, List.filter_cons, ih]

/-- A sorted arrangement that preserves, for every key value, the relative
order of the elements carrying that key is unique. -/
theorem stable_sorted_unique (key : α → ℚ) (l₁ : List α) :
    ∀ l₂ : List α, l₁.Pairwise (fun x y => key x ≤ key y) →
      l₂.Pairwise (fun x y => key x ≤ key y) →
      (∀ k : ℚ, l₁.filter (fun x => decide (key x = k)) =
        l₂.filter (fun x => decide (key x = k))) →
      l₁ = l₂ := by
  induction l₁ with
  | nil =>
    intro l₂ _ _ hf
    cases l₂ with
    | nil => rfl
    | cons b t₂ =>
      have := hf (key b)
      rw [List.filter_nil, List.filter_cons] at this
      simp at this
  | cons a t₁ ih =>
    intro l₂ h₁ h₂ hf
    cases l₂ with
    | nil =>
      have := hf (key a)
      rw [List.filter_nil, List.filter_cons] at this
      simp at this
    | cons b t₂ =>
      have hkey : key a = key b := by
        by_contra hne
        -- `a` is the head of the key-`(key a)` filter of `b :: t₂`, which
        -- starts inside `t₂`, so `key b ≤ key a`; symmetrically
        -- `key a ≤ key b`; antisymmetry contradicts `hne`.
        have hfa := hf (key a)
        rw [List.filter_cons, List.filter_cons] at hfa
        have hba : ¬(key b = key a) := fun h => hne h.symm
        simp only [decide_True, decide_eq_true_eq, if_pos rfl, hba, if_neg,
          decide_False, Bool.false_eq_true, if_false] at hfa
        have ha_mem : a ∈ t₂.filter (fun x => decide (key x = key a)) := by
          rw [← hfa]
          exact List.mem_cons_self _ _
        have hba' : key b ≤ key a :=
          List.rel_of_pairwise_cons h₂ (List.mem_of_mem_filter ha_mem)
        have hfb := hf (key b)
        rw [List.filter_cons, List.filter_cons] at hfb
        have hab' : ¬(key a = key b) := hne
        simp only [decide_True, decide_eq_true_eq, if_pos rfl, hab', if_neg,
          decide_False, Bool.false_eq_true, if_false] at hfb
        have hb_mem : b ∈ t₁.filter (fun x => decide (key x = key b)) := by
          rw [hfb]
          exact List.mem_cons_self _ _
        have hab'' : key a ≤ key b :=
          List.rel_of_pairwise_cons h₁ (List.mem_of_mem_filter hb_mem)
        exact hne (le_antisymm hab'' hba')
      have hfa := hf (key a)
      rw [List.filter_cons, List.filter_cons] at hfa
      simp only [decide_True, decide_eq_true_eq, if_pos rfl, if_pos hkey.symm] at hfa
      have hhead : a = b := List.head_eq_of_cons_eq hfa
      have htail_at : t₁.filter (fun x => decide (key x = key a)) =
          t₂.filter (fun x => decide (key x = key a)) := List.tail_eq_of_cons_eq hfa
      have hft : ∀ k : ℚ, t₁.filter (fun x => decide (key x = k)) =
          t₂.filter (fun x => decide (key x = k)) := by
        intro k
        by_cases hk : k = key a
        · rw [hk]; exact htail_at
        · have := hf k
          rw [List.filter_cons, List.filter_cons] at this
          have hak : ¬(key a = k) := fun h => hk h.symm
          have hbk : ¬(key b = k) := fun h => hk (hkey ▸ h).symm
          simpa [hak, hbk] using this
      rw [hhead, ih t₂ (List.Pairwise.of_cons h₁) (List.Pairwise.of_cons h₂) hft]

/-- In a key-sorted list, an element with strictly smaller key precedes one
with strictly larger key: they occur as the two-element sublist `[a, b]`. -/
theorem pair_sublist_of_pairwise (key : α → ℚ) (l : List α) (a b : α)
    (hp : l.Pairwise (fun x y => key x ≤ key y)) (hlt : key a < key b)
    (ha : a ∈ l) (hb : b ∈ l) : [a, b].Sublist l := by
  induction l with
  | nil => cases ha
  | cons x t ih =>
    rcases List.pairwise_cons.mp hp with ⟨hx, ht⟩
    rcases List.mem_cons.mp ha with rfl | ha'
    · have hbt : b ∈ t := by
        rcases List.mem_cons.mp hb with rfl | h
        · exact absurd hlt (lt_irrefl _)
        · exact h
      exact List.Sublist.cons₂ a (List.singleton_sublist.mpr hbt)
    · rcases List.mem_cons.mp hb with rfl | hb'
      · exact absurd (hx a ha') (not_le_of_lt hlt)
      · exact (ih ht ha' hb').cons x

/-! ## Facts about the JS `Set` model -/

theorem mem_jsSetAux [DecidableEq α] (seen l : List α) (x : α) :
    x ∈ jsSetAux seen l ↔ x ∈ l ∧ x ∉ seen := by
  induction l generalizing seen with
  | nil => simp [jsSetAux]
  | cons a t ih =>
    by_cases h : a ∈ seen
    · rw [jsSetAux, if_pos h, ih]
      constructor
      · rintro ⟨hx, hs⟩
        exact ⟨List.mem_cons_of_mem _ hx, hs⟩
      · rintro ⟨hx, hs⟩
        rcases List.mem_cons.mp hx with rfl | hx'
        · exact absurd h hs
        · exact ⟨hx', hs⟩
    · rw [jsSetAux, if_neg h]
      constructor
      · intro hx
        rcases List.mem_cons.mp hx with rfl | hx'
        · exact ⟨List.mem_cons_self _ _, h⟩
        · rcases (ih _).mp hx' with ⟨hxt, hxs⟩
          refine ⟨List.mem_cons_of_mem _ hxt, fun hc => hxs (List.mem_cons_of_mem _ hc)⟩
      · rintro ⟨hx, hs⟩
        rcases List.mem_cons.mp hx with rfl | hx'
        · exact List.mem_cons_self _ _
        · by_cases hxa : x = a
          · subst hxa
            exact List.mem_cons_self _ _
          · refine List.mem_cons_of_mem _ ((ih _).mpr ⟨hx', ?_⟩)
            intro hc
            rcases List.mem_cons.mp hc with h' | h'
            · exact hxa h'
            · exact hs h'

theorem nodup_jsSetAux [DecidableEq α] (seen l : List α) : (jsSetAux seen l).Nodup := by
  induction l generalizing seen with
  | nil => simp [jsSetAux]
  | cons a t ih =>
    by_cases h : a ∈ seen
    · rw [jsSetAux, if_pos h]
      exact ih seen
    · rw [jsSetAux, if_neg h]
      refine List.nodup_cons.mpr ⟨?_, ih _⟩
      intro hmem
      exact ((mem_jsSetAux _ _ _).mp hmem).2 (List.mem_cons_self a seen)

theorem mem_jsSetOfList [DecidableEq α] (l : List α) (x : α) :
    x ∈ jsSetOfList l ↔ x ∈ l := by
  rw [jsSetOfList, mem_jsSetAux]
  simp

/-! ## Keys of well-formed hour labels -/

theorem digitChar_isDigit {a : ℕ} (h : a < 10) : (Nat.digitChar a).isDigit = true := by
  interval_cases a <;> decide

theorem digitChar_toNat {a : ℕ} (h : a < 10) : (Nat.digitChar a).toNat = 48 + a := by
  interval_cases a <;> decide

theorem char_ne_of_toNat_ne {c d : Char} (h : c.toNat ≠ d.toNat) : c ≠ d :=
  fun hc => h (congrArg Char.toNat hc)

theorem digitChar_ne_A {a : ℕ} (h : a < 10) : Nat.digitChar a ≠ 'A' := by
  apply char_ne_of_toNat_ne
  rw [digitChar_toNat h]
  have hv : ('A' : Char).toNat = 65 := by decide
  omega

theorem digitChar_ne_B {a : ℕ} (h : a < 10) : Nat.digitChar a ≠ 'B' := by
  apply char_ne_of_toNat_ne
  rw [digitChar_toNat h]
  have hv : ('B' : Char).toNat = 66 := by decide
  omega

theorem digitChar_ne_minus {a : ℕ} (h : a < 10) : Nat.digitChar a ≠ '-' := by
  apply char_ne_of_toNat_ne
  rw [digitChar_toNat h]
  have hv : ('-' : Char).toNat = 45 := by decide
  omega

theorem digitChar_ne_plus {a : ℕ} (h : a < 10) : Nat.digitChar a ≠ '+' := by
  apply char_ne_of_toNat_ne
  rw [digitChar_toNat h]
  have hv : ('+' : Char).toNat = 43 := by decide
  omega

/-- `parseInt` of a string of shape `"HH:…"` reads the two leading digit
characters and stops at the colon. -/
theorem jsParseInt_hourDigits (hh : ℕ) (h24 : hh < 24) (tail : List Char) :
    jsParseInt (String.mk (twoDigits hh ++ ':' :: tail)) = some (hh : ℤ) := by
  have ha : hh / 10 < 10 := by omega
  have hb : hh % 10 < 10 := by omega
  have hld : leadingDigits (Nat.digitChar (hh / 10) :: Nat.digitChar (hh % 10) :: ':' :: tail)
      = [Nat.digitChar (hh / 10), Nat.digitChar (hh % 10)] := by
    simp [leadingDigits, List.takeWhile_cons, digitChar_isDigit ha, digitChar_isDigit hb]
  show jsParseInt ⟨Nat.digitChar (hh / 10) :: Nat.digitChar (hh % 10) :: ':' :: tail⟩ = _
  rw [jsParseInt]
  simp only [if_neg (digitChar_ne_minus ha), if_neg (digitChar_ne_plus ha)]
  rw [if_pos (by simp [hld])]
  rw [hld]
  have h1 := digitChar_toNat ha
  have h2 := digitChar_toNat hb
  simp only [digitsVal, List.foldl_cons, List.foldl_nil, digitVal, h1, h2]
  congr 1
  push_cast
  omega

theorem string_A_data : ("A" : String).data = ['A'] := rfl

theorem string_B_data : ("B" : String).data = ['B'] := rfl

theorem string_empty_data : ("" : String).data = ([] : List Char) := rfl

theorem mkLabel_data (hh mm : ℕ) (suffix : String) :
    (mkLabel hh mm suffix).data =
      Nat.digitChar (hh / 10) :: Nat.digitChar (hh % 10) :: ':' ::
      Nat.digitChar (mm / 10) :: Nat.digitChar (mm % 10) :: suffix.data := rfl

/-- Sortable values of well-formed hour labels: `"HH:MM"` has value `HH`;
the `A`-suffixed label `HH + 1/10`; the `B`-suffixed label `HH + 2/10`. -/
theorem getSortableHourValue_mkLabel (hh mm : ℕ) (h24 : hh < 24) (h60 : mm < 60) :
    getSortableHourValue (mkLabel hh mm "") = some ((hh : ℚ))
    ∧ getSortableHourValue (mkLabel hh mm "A") = some ((hh : ℚ) + 1 / 10)
    ∧ getSortableHourValue (mkLabel hh mm "B") = some ((hh : ℚ) + 2 / 10) := by
  have hma : mm / 10 < 10 := by omega
  have hmb : mm % 10 < 10 := by omega
  have hha : hh / 10 < 10 := by omega
  have hhb : hh % 10 < 10 := by omega
  have hcolonA : (':' : Char) ≠ 'A' := by decide
  have hcolonB : (':' : Char) ≠ 'B' := by decide
  have hAB : ('A' : Char) ≠ 'B' := by decide
  have hnoA : jsIncludes (mkLabel hh mm "") 'A' = false := by
    simp [jsIncludes, mkLabel_data, string_empty_data,
      (digitChar_ne_A hha).symm, (digitChar_ne_A hhb).symm,
      (digitChar_ne_A hma).symm, (digitChar_ne_A hmb).symm, hcolonA.symm]
  have hnoB : jsIncludes (mkLabel hh mm "") 'B' = false := by
    simp [jsIncludes, mkLabel_data, string_empty_data,
      (digitChar_ne_B hha).symm, (digitChar_ne_B hhb).symm,
      (digitChar_ne_B hma).symm, (digitChar_ne_B hmb).symm, hcolonB.symm]
  have hyesA : jsIncludes (mkLabel hh mm "A") 'A' = true := by
    simp [jsIncludes, mkLabel_data, string_A_data]
  have hnoA' : jsIncludes (mkLabel hh mm "B") 'A' = false := by
    simp [jsIncludes, mkLabel_data, string_B_data,
      (digitChar_ne_A hha).symm, (digitChar_ne_A hhb).symm,
      (digitChar_ne_A hma).symm, (digitChar_ne_A hmb).symm, hcolonA.symm, hAB]
  have hyesB : jsIncludes (mkLabel hh mm "B") 'B' = true := by
    simp [jsIncludes, mkLabel_data, string_B_data]
  have hremA : jsReplaceFirst (mkLabel hh mm "A") 'A' =
      String.mk (twoDigits hh ++ ':' :: twoDigits mm) := by
    simp only [jsReplaceFirst, mkLabel_data, string_A_data]
    rw [jsRemoveFirst, if_neg (digitChar_ne_A hha), jsRemoveFirst,
      if_neg (digitChar_ne_A hhb), jsRemoveFirst, if_neg hcolonA, jsRemoveFirst,
      if_neg (digitChar_ne_A hma), jsRemoveFirst, if_neg (digitChar_ne_A hmb),
      jsRemoveFirst, if_pos rfl]
    rfl
  have hremB : jsReplaceFirst (mkLabel hh mm "B") 'B' =
      String.mk (twoDigits hh ++ ':' :: twoDigits mm) := by
    simp only [jsReplaceFirst, mkLabel_data, string_B_data]
    rw [jsRemoveFirst, if_neg (digitChar_ne_B hha), jsRemoveFirst,
      if_neg (digitChar_ne_B hhb), jsRemoveFirst, if_neg hcolonB, jsRemoveFirst,
      if_neg (digitChar_ne_B hma), jsRemoveFirst, if_neg (digitChar_ne_B hmb),
      jsRemoveFirst, if_pos rfl]
    rfl
  have hparse : jsParseInt (String.mk (twoDigits hh ++ ':' :: twoDigits mm)) = some (hh : ℤ) :=
    jsParseInt_hourDigits hh h24 _
  have hparse' : jsParseInt (mkLabel hh mm "") = some (hh : ℤ) := by
    have : mkLabel hh mm "" = String.mk (twoDigits hh ++ ':' :: twoDigits mm) := by
      simp [mkLabel, string_empty_data]
    rw [this]
    exact hparse
  refine ⟨?_, ?_, ?_⟩
  · rw [getSortableHourValue, hnoA, hnoB]
    simp [hparse']
  · rw [getSortableHourValue, hyesA]
    simp [hremA, hparse]
  · rw [getSortableHourValue, hnoA', hyesB]
    simp [hremB, hparse]

/-- The key the comparator assigns to a label, as a total function; on
well-formed labels it is the (non-`NaN`) sortable value. -/
def qkey (l : String) : ℚ := (getSortableHourValue l).getD 0

theorem qkey_mkLabel_empty {hh mm : ℕ} (h24 : hh < 24) (h60 : mm < 60) :
    qkey (mkLabel hh mm "") = (hh : ℚ) := by
  rw [qkey, (getSortableHourValue_mkLabel hh mm h24 h60).1, Option.getD_some]

theorem qkey_mkLabel_A {hh mm : ℕ} (h24 : hh < 24) (h60 : mm < 60) :
    qkey (mkLabel hh mm "A") = (hh : ℚ) + 1 / 10 := by
  rw [qkey, (getSortableHourValue_mkLabel hh mm h24 h60).2.1, Option.getD_some]

theorem qkey_mkLabel_B {hh mm : ℕ} (h24 : hh < 24) (h60 : mm < 60) :
    qkey (mkLabel hh mm "B") = (hh : ℚ) + 2 / 10 := by
  rw [qkey, (getSortableHourValue_mkLabel hh mm h24 h60).2.2, Option.getD_some]

theorem getSortableHourValue_eq_qkey {l : String} (hl : IsHourLabel l) :
    getSortableHourValue l = some (qkey l) := by
  obtain ⟨hh, mm, suffix, h24, h60, hs, rfl⟩ := hl
  rcases hs with rfl | rfl | rfl
  · rw [(getSortableHourValue_mkLabel hh mm h24 h60).1, qkey_mkLabel_empty h24 h60]
  · rw [(getSortableHourValue_mkLabel hh mm h24 h60).2.1, qkey_mkLabel_A h24 h60]
  · rw [(getSortableHourValue_mkLabel hh mm h24 h60).2.2, qkey_mkLabel_B h24 h60]

theorem labelLe_eq_keyLe {a b : String} (ha : IsHourLabel a) (hb : IsHourLabel b) :
    labelLe a b = keyLe qkey a b := by
  rw [labelLe, getSortableHourValue_eq_qkey ha, getSortableHourValue_eq_qkey hb, keyLe]

theorem specHour_mkLabel (hh mm : ℕ) (suffix : String) (h24 : hh < 24) (_h60 : mm < 60) :
    specHour (mkLabel hh mm suffix) = hh := by
  have hha : hh / 10 < 10 := by omega
  have hhb : hh % 10 < 10 := by omega
  rw [specHour]
  simp only [mkLabel_data]
  rw [digitChar_toNat hha, digitChar_toNat hhb]
  omega

/-- On well-formed labels the comparator orders by wall-clock hour: smaller
key means no-later hour. -/
theorem specHour_le_of_qkey_le {a b : String} (ha : IsHourLabel a) (hb : IsHourLabel b)
    (h : qkey a ≤ qkey b) : specHour a ≤ specHour b := by
  obtain ⟨h1, m1, s1, h241, h601, hs1, rfl⟩ := ha
  obtain ⟨h2, m2, s2, h242, h602, hs2, rfl⟩ := hb
  rw [specHour_mkLabel h1 m1 s1 h241 h601, specHour_mkLabel h2 m2 s2 h242 h602]
  by_contra hc
  push_neg at hc
  have hcast : (h2 : ℚ) + 1 ≤ (h1 : ℚ) := by exact_mod_cast hc
  rcases hs1 with rfl | rfl | rfl <;> rcases hs2 with rfl | rfl | rfl <;>
    [rw [qkey_mkLabel_empty h241 h601, qkey_mkLabel_empty h242 h602] at h;
     rw [qkey_mkLabel_empty h241 h601, qkey_mkLabel_A h242 h602] at h;
     rw [qkey_mkLabel_empty h241 h601, qkey_mkLabel_B h242 h602] at h;
     rw [qkey_mkLabel_A h241 h601, qkey_mkLabel_empty h242 h602] at h;
     rw [qkey_mkLabel_A h241 h601, qkey_mkLabel_A h242 h602] at h;
     rw [qkey_mkLabel_A h241 h601, qkey_mkLabel_B h242 h602] at h;
     rw [qkey_mkLabel_B h241 h601, qkey_mkLabel_empty h242 h602] at h;
     rw [qkey_mkLabel_B h241 h601, qkey_mkLabel_A h242 h602] at h;
     rw [qkey_mkLabel_B h241 h601, qkey_mkLabel_B h242 h602] at h] <;>
    linarith

/-! ## Chart rows: rendered cell values -/

/-- The value the specification prescribes for a day's cell at hour label
`l`: the price of the (unique) slot of that grid labelled `l` when that slot
is present and not missing, and `none` (an empty cell) otherwise — whether
the slot is missing or the label is absent from the grid altogether. -/
def slotValue (hours : List HourData) (l : String) : Option ℚ :=
  (hours.find? (fun h => decide (h.hour_label = l))).bind
    (fun h => if h.is_missing then none else h.price_eur_mwh)

/-- Looking up a label in the hour-price `Map` of a grid with distinct
labels yields exactly the specified cell value. -/
theorem jsMapGet_eq_slotValue (hours : List HourData) (l : String)
    (hnd : (hours.map (fun h => h.hour_label)).Nodup) :
    (jsMapGet (createHourPriceMap hours) l).getD none = slotValue hours l := by
  induction hours with
  | nil => rfl
  | cons h t ih =>
    rw [List.map_cons, List.nodup_cons] at hnd
    obtain ⟨hnm, hnd'⟩ := hnd
    have hrev : (createHourPriceMap (h :: t)).reverse =
        (createHourPriceMap t).reverse ++
          [(h.hour_label, if h.is_missing then none else h.price_eur_mwh)] := by
      simp [createHourPriceMap]
    by_cases hl : h.hour_label = l
    · have hnone : (createHourPriceMap t).reverse.find? (fun e => decide (e.1 = l)) = none := by
        rw [List.find?_eq_none]
        intro e he
        rw [List.mem_reverse] at he
        obtain ⟨x, hx, rfl⟩ := List.mem_map.mp he
        simp only [decide_eq_true_eq]
        intro hc
        exact hnm (by rw [hl, ← hc]; exact List.mem_map_of_mem _ hx)
      rw [jsMapGet, hrev, List.find?_append, hnone, Option.none_or,
        List.find?_cons_of_pos _ (by simp [hl]), slotValue,
        List.find?_cons_of_pos _ (by simp [hl])]
      simp
    · have hfind : List.find? (fun x => decide (x.hour_label = l)) (h :: t) =
          List.find? (fun x => decide (x.hour_label = l)) t :=
        List.find?_cons_of_neg _ (by simp [hl])
      have hfind2 : List.find? (fun e : String × Option ℚ => decide (e.1 = l))
          [(h.hour_label, if h.is_missing then none else h.price_eur_mwh)] = none := by
        rw [List.find?_cons_of_neg _ (by simp [hl]), List.find?_nil]
      have hsv : slotValue (h :: t) l = slotValue t l := by
        simp only [slotValue, hfind]
      rw [hsv, jsMapGet, hrev, List.find?_append, hfind2, Option.or_none]
      exact ih hnd'

theorem map_time_rows (f1 f2 f3 : String → Option ℚ) (ls : List String) :
    (ls.map (fun label => ChartDataPoint.mk label (f1 label) (f2 label) (f3 label))).map
      (fun r => r.time) = ls := by
  induction ls with
  | nil => rfl
  | cons a t ih => simp [ih]

/-- The row labels of the prepared chart data are the chronologically sorted
distinct labels. -/
theorem prepareChartData_times (data : ApiResponse) :
    (prepareChartData (some data)).map (fun r => r.time) =
      sortHourLabelsChronologically (getAllHourLabels data) := by
  exact map_time_rows _ _ _ _

/-- **C1.** For data whose labels are all well-formed hour labels, the
prepared chart output has: no repeated row label; exactly the labels present
across the union of the three grids; rows in chronological (wall-clock hour)
order; and, for a wall-clock hour carrying both suffixed labels, the `A` row
strictly before the `B` row (they form the two-element sublist `[A, B]`). -/
theorem claim_C1 (data : ApiResponse)
    (hwf : ∀ l ∈ getAllHourLabels data, IsHourLabel l) :
    ((prepareChartData (some data)).map (fun r => r.time)).Nodup
    ∧ (∀ l : String, l ∈ (prepareChartData (some data)).map (fun r => r.time) ↔
        l ∈ (data.selected_day.hours ++ data.previous_day.hours ++ data.next_day.hours).map
          (fun h => h.hour_label))
    ∧ ((prepareChartData (some data)).map (fun r => r.time)).Pairwise
        (fun a b => specHour a ≤ specHour b)
    ∧ (∀ hh mm : ℕ, hh < 24 → mm < 60 →
        mkLabel hh mm "A" ∈ (prepareChartData (some data)).map (fun r => r.time) →
        mkLabel hh mm "B" ∈ (prepareChartData (some data)).map (fun r => r.time) →
        List.Sublist [mkLabel hh mm "A", mkLabel hh mm "B"]
          ((prepareChartData (some data)).map (fun r => r.time))) := by
  rw [prepareChartData_times]
  have hperm : List.Perm (sortHourLabelsChronologically (getAllHourLabels data))
      (getAllHourLabels data) := jsStableSort_perm labelLe _
  have hsorteq : sortHourLabelsChronologically (getAllHourLabels data) =
      jsStableSort (keyLe qkey) (getAllHourLabels data) := by
    apply jsStableSort_congr
    intro a ha b hb
    exact labelLe_eq_keyLe (hwf a ha) (hwf b hb)
  have hqsorted : (sortHourLabelsChronologically (getAllHourLabels data)).Pairwise
      (fun x y => qkey x ≤ qkey y) := by
    rw [hsorteq]
    exact jsStableSort_keyLe_sorted qkey _
  refine ⟨?_, ?_, ?_, ?_⟩
  · refine hperm.nodup_iff.mpr ?_
    rw [getAllHourLabels]
    exact nodup_jsSetAux ([] : List String) _
  · intro l
    rw [hperm.mem_iff, getAllHourLabels, mem_jsSetOfList]
    simp [List.map_append]
  · refine List.Pairwise.imp_of_mem ?_ hqsorted
    intro a b ha hb hq
    exact specHour_le_of_qkey_le (hwf a (hperm.subset ha)) (hwf b (hperm.subset hb)) hq
  · intro hh mm h24 h60 hA hB
    apply pair_sublist_of_pairwise qkey _ _ _ hqsorted _ hA hB
    rw [qkey_mkLabel_A h24 h60, qkey_mkLabel_B h24 h60]
    have : (1 : ℚ) / 10 < 2 / 10 := by norm_num
    linarith

/-- **C4.** When each grid's labels are distinct (as the data model
guarantees), every prepared chart row carries, for each of the three days,
exactly the specified cell value for its hour label: the slot's
`price_eur_mwh` when a slot with that label exists and is not missing, and
`none` otherwise — both for a missing slot and for a label absent from that
day's grid; and every label present in the union of the three grids has a
row.  A missing value is `none`, a typed absence, never a `"null"`/`"NaN"`
string. -/
theorem claim_C4 (data : ApiResponse)
    (hndS : (data.selected_day.hours.map (fun h => h.hour_label)).Nodup)
    (hndP : (data.previous_day.hours.map (fun h => h.hour_label)).Nodup)
    (hndN : (data.next_day.hours.map (fun h => h.hour_label)).Nodup) :
    (∀ r ∈ prepareChartData (some data),
      r.selected = slotValue data.selected_day.hours r.time
      ∧ r.previous = slotValue data.previous_day.hours r.time
      ∧ r.next = slotValue data.next_day.hours r.time)
    ∧ ∀ l ∈ (data.selected_day.hours ++ data.previous_day.hours ++ data.next_day.hours).map
        (fun h => h.hour_label),
        l ∈ (prepareChartData (some data)).map (fun r => r.time) := by
  constructor
  · intro r hr
    simp only [prepareChartData] at hr
    obtain ⟨label, hlabel, rfl⟩ := List.mem_map.mp hr
    exact ⟨jsMapGet_eq_slotValue _ _ hndS, jsMapGet_eq_slotValue _ _ hndP,
      jsMapGet_eq_slotValue _ _ hndN⟩
  · intro l hl
    rw [prepareChartData_times]
    simp only [sortHourLabelsChronologically]
    rw [(jsStableSort_perm labelLe _).mem_iff, getAllHourLabels, mem_jsSetOfList]
    simpa [List.map_append] using hl

/-- **C6.** Chart-data preparation is deterministic.  In Lean the modelled
function is trivially deterministic, so we prove the substantive reading:
the ECMA-262 contract only promises *some* stable, comparator-consistent
arrangement of the labels, and any list `ys` satisfying that contract —
sorted under the code's comparator and preserving, for every comparator
value, the relative order of the labels carrying it — is *equal* to the
modelled output, and the rows built from it are exactly
`prepareChartData`'s output.  There is no hidden ordering freedom. -/
theorem claim_C6 (data : ApiResponse) (ys : List String)
    (hwf : ∀ l ∈ getAllHourLabels data, IsHourLabel l)
    (hsorted : ys.Pairwise (fun a b => labelLe a b = true))
    (hstable : ∀ k : Option ℚ, ys.filter (fun l => decide (getSortableHourValue l = k)) =
      (getAllHourLabels data).filter (fun l => decide (getSortableHourValue l = k))) :
    ys = sortHourLabelsChronologically (getAllHourLabels data)
    ∧ ys.map (fun label => ChartDataPoint.mk label
        ((jsMapGet (createHourPriceMap data.previous_day.hours) label).getD none)
        ((jsMapGet (createHourPriceMap data.selected_day.hours) label).getD none)
        ((jsMapGet (createHourPriceMap data.next_day.hours) label).getD none))
      = prepareChartData (some data) := by
  have hyswf : ∀ l ∈ ys, IsHourLabel l := by
    intro x hx
    have hxf : x ∈ ys.filter (fun l => decide (getSortableHourValue l = getSortableHourValue x)) :=
      List.mem_filter.mpr ⟨hx, by simp⟩
    rw [hstable] at hxf
    exact hwf x (List.mem_of_mem_filter hxf)
  have hq1 : ys.Pairwise (fun x y => qkey x ≤ qkey y) := by
    refine List.Pairwise.imp_of_mem ?_ hsorted
    intro a b ha hb hle
    rw [labelLe_eq_keyLe (hyswf a ha) (hyswf b hb), keyLe] at hle
    exact of_decide_eq_true hle
  have hfilters : ∀ k : ℚ, ys.filter (fun x => decide (qkey x = k)) =
      (getAllHourLabels data).filter (fun x => decide (qkey x = k)) := by
    intro k
    have h1 : ys.filter (fun x => decide (qkey x = k)) =
        ys.filter (fun l => decide (getSortableHourValue l = some k)) :=
      List.filter_congr (fun x hx => by
        rw [getSortableHourValue_eq_qkey (hyswf x hx)]
        simp)
    have h2 : (getAllHourLabels data).filter (fun x => decide (qkey x = k)) =
        (getAllHourLabels data).filter (fun l => decide (getSortableHourValue l = some k)) :=
      List.filter_congr (fun x hx => by
        rw [getSortableHourValue_eq_qkey (hwf x hx)]
        simp)
    rw [h1, h2, hstable]
  have hsorteq : sortHourLabelsChronologically (getAllHourLabels data) =
      jsStableSort (keyLe qkey) (getAllHourLabels data) := by
    apply jsStableSort_congr
    intro a ha b hb
    exact labelLe_eq_keyLe (hwf a ha) (hwf b hb)
  have hys : ys = jsStableSort (keyLe qkey) (getAllHourLabels data) := by
    apply stable_sorted_unique qkey ys _ hq1 (jsStableSort_keyLe_sorted qkey _)
    intro k
    rw [hfilters k, jsStableSort_keyLe_filter qkey k _]
  refine ⟨by rw [hys, hsorteq], ?_⟩
  rw [hys, ← hsorteq]
  rfl

/-- Three-day data around the 2025 fall-back date, with the doubled
wall-clock hour labelled `02:00A`/`02:00B` on the selected day. -/
def chartDemo : ApiResponse :=
  { previous_day := ⟨"2025-10-25",
      [⟨1761350400000, "02:00", some 8, some 1, false, false⟩]⟩
    selected_day := ⟨"2025-10-26",
      [⟨1761436800000, "02:00A", some 10, some 1, false, true⟩,
       ⟨1761440400000, "02:00B", some 12, some 1, false, true⟩]⟩
    next_day := ⟨"2025-10-27",
      [⟨1761526800000, "03:00", none, none, true, false⟩]⟩ }

unseal Rat.add Rat.mul Rat.inv Rat.sub in
/-- Witness for `claim_C1`: on `chartDemo` all labels are well-formed, and
the theorem puts the `02:00A` row strictly before the `02:00B` row. -/
theorem claim_C1_witness :
    (∀ l ∈ getAllHourLabels chartDemo, IsHourLabel l)
    ∧ List.Sublist [mkLabel 2 0 "A", mkLabel 2 0 "B"]
        ((prepareChartData (some chartDemo)).map (fun r => r.time)) :=
  ⟨by decide, (claim_C1 chartDemo (by decide)).2.2.2 2 0 (by decide) (by decide)
    (by decide) (by decide)⟩

unseal Rat.add Rat.mul Rat.inv Rat.sub in
/-- Witness for `claim_C4`: each `chartDemo` grid has distinct labels, and
every rendered row of `chartDemo` carries the specified cell values. -/
theorem claim_C4_witness :
    ((chartDemo.selected_day.hours.map (fun h => h.hour_label)).Nodup
      ∧ (chartDemo.previous_day.hours.map (fun h => h.hour_label)).Nodup
      ∧ (chartDemo.next_day.hours.map (fun h => h.hour_label)).Nodup)
    ∧ ∀ r ∈ prepareChartData (some chartDemo),
        r.selected = slotValue chartDemo.selected_day.hours r.time
        ∧ r.previous = slotValue chartDemo.previous_day.hours r.time
        ∧ r.next = slotValue chartDemo.next_day.hours r.time :=
  ⟨⟨by decide, by decide, by decide⟩,
    (claim_C4 chartDemo (by decide) (by decide) (by decide)).1⟩

/-- Two-day-grid data whose union labels arrive unsorted. -/
def c6Demo : ApiResponse :=
  { previous_day := ⟨"2025-05-31", []⟩
    selected_day := ⟨"2025-06-01",
      [⟨1748739600000, "01:00", some 5, some 1, false, false⟩,
       ⟨1748736000000, "00:00", some 4, some 1, false, false⟩]⟩
    next_day := ⟨"2025-06-02", []⟩ }

unseal Rat.add Rat.mul Rat.inv Rat.sub in
/-- Witness for `claim_C6`: the concrete list `["00:00", "01:00"]` satisfies
the stable-sort contract for `c6Demo` and the theorem shows it is the
modelled output. -/
theorem claim_C6_witness :
    (∀ l ∈ getAllHourLabels c6Demo, IsHourLabel l)
    ∧ ["00:00", "01:00"] = sortHourLabelsChronologically (getAllHourLabels c6Demo) :=
  ⟨by decide, (claim_C6 c6Demo ["00:00", "01:00"] (by decide) (by decide) (by
    intro k
    have hLeq : getAllHourLabels c6Demo = ["01:00", "00:00"] := by decide
    rw [hLeq]
    by_cases h0 : getSortableHourValue "00:00" = k <;>
      by_cases h1 : getSortableHourValue "01:00" = k
    · exfalso
      rw [← h1] at h0
      have hne : ¬ (getSortableHourValue "00:00" = getSortableHourValue "01:00") := by decide
      exact hne h0
    · simp [List.filter_cons, h0, h1]
    · simp [List.filter_cons, h0, h1]
    · simp [List.filter_cons, h0, h1])).1⟩

/-! ## Date utilities (`formatDate`, `getPreviousDay`, `getNextDay`)

```ts
export function formatDate(date: Date): string {
  return date.toISOString().split('T')[0];
}
export function getPreviousDay(dateStr: string): string {
  const date = new Date(dateStr);
  date.setDate(date.getDate() - 1);
  return formatDate(date);
}
export function getNextDay(dateStr: string): string { … + 1 … }
```

A `Date` is a timestamp; we count in minutes (every quantity involved is a
whole number of minutes) from 0000-01-01T00:00Z of the proleptic Gregorian
calendar ECMA-262 prescribes — the epoch choice only shifts all timestamps
and is unobservable in these functions.  The model covers day numbers `≥ 0`
(years from 0000) and the `"YYYY-MM-DD"` (four-digit-year) formatting
regime, which contains every date these claims quantify over.

`new Date("YYYY-MM-DD")` parses the date-only ISO form as *UTC* midnight
(Invalid Date — `none` — on a malformed or out-of-range string; the
subsequent `toISOString` would throw on it).  `getDate`/`setDate` work on
the *local* calendar: `getDate()` is the day-of-month of the local civil
date of `t + tza(t)`; `setDate(v)` rebuilds the local time from
`MakeDay(year, month, v) = dayNumber(year, month, 1) + v - 1` and the
unchanged local time-of-day, then converts back with the UTC(local)
operation; `toISOString` formats the UTC civil date.  The host timezone
enters through the two conversions, passed here as an explicit `JsTz`. -/

def isLeap (y : ℕ) : Bool := (y % 4 == 0 && y % 100 != 0) || (y % 400 == 0)

def daysInYear (y : ℕ) : ℕ := if isLeap y then 366 else 365

def daysInMonth (y m : ℕ) : ℕ :=
  if m = 2 then (if isLeap y then 29 else 28)
  else if m = 4 ∨ m = 6 ∨ m = 9 ∨ m = 11 then 30
  else 31

/-- Days in years `[0, y)` of the proleptic Gregorian calendar, in closed
form (`(y+k-1)/k` counts the multiples of `k` in `[0, y)`): every fourth
year is leap except centuries, except every fourth century. -/
def daysBeforeYear (y : ℕ) : ℕ :=
  365 * y + (y + 3) / 4 - (y + 99) / 100 + (y + 399) / 400

def daysBeforeMonth (y : ℕ) : ℕ → ℕ
  | 0 => 0
  | 1 => 0
  | m + 2 => daysBeforeMonth y (m + 1) + daysInMonth y (m + 1)

/-- Day number of a civil date: days since 0000-01-01. -/
def dayNumber (y m d : ℕ) : ℕ := daysBeforeYear y + daysBeforeMonth y m + (d - 1)

structure Civil where
  year : ℕ
  month : ℕ
  day : ℕ
deriving DecidableEq

def ValidCivil (c : Civil) : Prop :=
  1 ≤ c.month ∧ c.month ≤ 12 ∧ 1 ≤ c.day ∧ c.day ≤ daysInMonth c.year c.month

instance (c : Civil) : Decidable (ValidCivil c) := by
  unfold ValidCivil; infer_instance

/-- Scan years from `y` consuming `n` days; the fuel bounds the recursion
and is always supplied large enough for the scan to finish.  The caller
starts the scan at the hint `n / 366`, which is at most a handful of years
below the answer, so evaluation stays shallow. -/
def yearFromDays : ℕ → ℕ → ℕ → ℕ × ℕ
  | 0, y, n => (y, n)
  | fuel + 1, y, n =>
    if n < daysInYear y then (y, n) else yearFromDays fuel (y + 1) (n - daysInYear y)

/-- Scan months from `m` consuming `r` days of the year `y`. -/
def monthFromDoy : ℕ → ℕ → ℕ → ℕ → ℕ × ℕ
  | 0, _, m, r => (m, r)
  | fuel + 1, y, m, r =>
    if r < daysInMonth y m then (m, r) else monthFromDoy fuel y (m + 1) (r - daysInMonth y m)

/-- Civil date of a day number (clamping negative day numbers to 0; the
model is only used at nonnegative day numbers). -/
def civilFromDays (n : ℤ) : Civil :=
  let n' := n.toNat
  let p1 := yearFromDays (n' + 1) (n' / 366) (n' - daysBeforeYear (n' / 366))
  let p2 := monthFromDoy 12 p1.1 1 p1.2
  ⟨p1.1, p2.1, p2.2 + 1⟩

def pad4 (n : ℕ) : List Char :=
  [Nat.digitChar (n / 1000 % 10), Nat.digitChar (n / 100 % 10),
   Nat.digitChar (n / 10 % 10), Nat.digitChar (n % 10)]

def formatCivil (c : Civil) : String :=
  String.mk (pad4 c.year ++ '-' :: twoDigits c.month ++ '-' :: twoDigits c.day)

/-- `toISOString().split('T')[0]` of the timestamp `t` (minutes): the UTC
civil date formatted `YYYY-MM-DD`. -/
def formatDate (t : ℤ) : String := formatCivil (civilFromDays (t.fdiv 1440))

def charDigit (c : Char) : ℕ := c.toNat - 48

/-- The date-only `YYYY-MM-DD` production of the ECMA-262 Date Time String
Format, with the month/day range checks engines apply; anything else is
Invalid Date (`none`). -/
def parseIsoDate (s : String) : Option Civil :=
  match s.data with
  | [y1, y2, y3, y4, s1, m1, m2, s2, d1, d2] =>
    if y1.isDigit && y2.isDigit && y3.isDigit && y4.isDigit && s1 = '-'
        && m1.isDigit && m2.isDigit && s2 = '-' && d1.isDigit && d2.isDigit then
      let y := ((charDigit y1 * 10 + charDigit y2) * 10 + charDigit y3) * 10 + charDigit y4
      let m := charDigit m1 * 10 + charDigit m2
      let d := charDigit d1 * 10 + charDigit d2
      if 1 ≤ m ∧ m ≤ 12 ∧ 1 ≤ d ∧ d ≤ daysInMonth y m then some ⟨y, m, d⟩ else none
    else none
  | _ => none

/-- `new Date("YYYY-MM-DD")`: UTC midnight of the parsed calendar date. -/
def jsParseDateUTC (s : String) : Option ℤ :=
  (parseIsoDate s).map (fun c => 1440 * (dayNumber c.year c.month c.day : ℤ))

/-- The host environment's timezone as ECMA-262 sees it: `ofs t` is the
local-time-zone adjustment (in minutes) at the UTC instant `t`, and
`localToUtc` is the UTC(localTime) operation, which for a repeated local
time (fall-back) picks the earlier instant and for a skipped local time
(spring-forward) interprets the wall clock with the offset in force before
the transition. -/
structure JsTz where
  ofs : ℤ → ℤ
  localToUtc : ℤ → ℤ

/-- A timezone with a constant UTC offset of `c` minutes (no DST). -/
def fixedTz (c : ℤ) : JsTz := ⟨fun _ => c, fun localMin => localMin - c⟩

/-- `date.setDate(date.getDate() + delta); return formatDate(date)` after
`new Date(dateStr)`, under the host timezone `tz`. -/
def jsShiftDay (tz : JsTz) (delta : ℤ) (dateStr : String) : Option String :=
  (jsParseDateUTC dateStr).map (fun t =>
    let localMin := t + tz.ofs t
    let c := civilFromDays (localMin.fdiv 1440)
    let timeOfDay := localMin.emod 1440
    let newLocal := 1440 * ((dayNumber c.year c.month 1 : ℤ) + ((c.day : ℤ) + delta) - 1)
      + timeOfDay
    formatDate (tz.localToUtc newLocal))

def getPreviousDay (tz : JsTz) (dateStr : String) : Option String := jsShiftDay tz (-1) dateStr

def getNextDay (tz : JsTz) (dateStr : String) : Option String := jsShiftDay tz 1 dateStr

/-- Europe/Vienna during 2025 (the deployment's regional timezone): CET
(+60) until the spring-forward transition at 2025-03-30T01:00Z, CEST (+120)
until the fall-back transition at 2025-10-26T01:00Z, then CET again.
`localToUtc` resolves the skipped hour `[02:00, 03:00)` of 2025-03-30 with
the pre-transition offset and the repeated hour `[02:00, 03:00)` of
2025-10-26 to its earlier (CEST) instant, per ECMA-262.  Valid for
timestamps within 2025, which covers the claims' dates. -/
def viennaTz2025 : JsTz :=
  { ofs := fun t =>
      if t < 1440 * (dayNumber 2025 3 30 : ℤ) + 60 then 60
      else if t < 1440 * (dayNumber 2025 10 26 : ℤ) + 60 then 120
      else 60
    localToUtc := fun localMin =>
      if localMin < 1440 * (dayNumber 2025 3 30 : ℤ) + 180 then localMin - 60
      else if localMin < 1440 * (dayNumber 2025 10 26 : ℤ) + 180 then localMin - 120
      else localMin - 60 }

/-! ## Calendar facts -/

theorem daysInYear_ge (y : ℕ) : 365 ≤ daysInYear y := by
  rw [daysInYear]
  split <;> omega

theorem daysInYear_le (y : ℕ) : daysInYear y ≤ 366 := by
  rw [daysInYear]
  split <;> omega

theorem daysInYear_eq_ite (y : ℕ) :
    daysInYear y = if (y % 4 = 0 ∧ y % 100 ≠ 0) ∨ y % 400 = 0 then 366 else 365 := by
  rw [daysInYear, isLeap]
  by_cases h4 : y % 4 = 0 <;> by_cases h100 : y % 100 = 0 <;> by_cases h400 : y % 400 = 0 <;>
    simp [h4, h100, h400]

set_option maxHeartbeats 1000000 in
theorem daysBeforeYear_succ (y : ℕ) : daysBeforeYear (y + 1) = daysBeforeYear y + daysInYear y := by
  rw [daysInYear_eq_ite]
  simp only [daysBeforeYear]
  split
  · omega
  · omega

theorem daysBeforeYear_mono {a b : ℕ} (h : a ≤ b) : daysBeforeYear a ≤ daysBeforeYear b := by
  have h4 : (a + 3) / 4 ≤ (b + 3) / 4 := Nat.div_le_div_right (by omega)
  have h400 : (a + 399) / 400 ≤ (b + 399) / 400 := Nat.div_le_div_right (by omega)
  have h100b : (b + 99) / 100 ≤ (a + 99) / 100 + (b - a) := by
    have hle : b + 99 ≤ (a + 99) + 100 * (b - a) := by omega
    calc (b + 99) / 100 ≤ ((a + 99) + 100 * (b - a)) / 100 := Nat.div_le_div_right hle
      _ = (a + 99) / 100 + (b - a) := by rw [Nat.add_mul_div_left _ _ (by norm_num)]
  simp only [daysBeforeYear]
  omega

theorem daysBeforeYear_lower (y : ℕ) : 365 * y ≤ daysBeforeYear y := by
  simp only [daysBeforeYear]
  omega

theorem daysBeforeYear_upper (y : ℕ) : daysBeforeYear y ≤ 366 * y := by
  simp only [daysBeforeYear]
  omega

theorem daysBeforeMonth_succ {m : ℕ} (y : ℕ) (hm : 1 ≤ m) :
    daysBeforeMonth y (m + 1) = daysBeforeMonth y m + daysInMonth y m := by
  match m, hm with
  | m + 1, _ => rfl

theorem daysBeforeMonth_mono (y : ℕ) {a b : ℕ} (ha : 1 ≤ a) (h : a ≤ b) :
    daysBeforeMonth y a ≤ daysBeforeMonth y b := by
  induction b with
  | zero => omega
  | succ b ih =>
    by_cases hab : a = b + 1
    · rw [hab]
    · have hb : a ≤ b := by omega
      have hb1 : 1 ≤ b := by omega
      calc daysBeforeMonth y a ≤ daysBeforeMonth y b := ih hb
        _ ≤ daysBeforeMonth y (b + 1) := by rw [daysBeforeMonth_succ y hb1]; omega

theorem daysBeforeMonth_thirteen (y : ℕ) : daysBeforeMonth y 13 = daysInYear y := by
  cases h : isLeap y <;>
    simp [daysBeforeMonth, daysInMonth, daysInYear, h]

theorem doy_lt_daysInYear (y m d : ℕ) (hm1 : 1 ≤ m) (hm2 : m ≤ 12) (hd1 : 1 ≤ d)
    (hd2 : d ≤ daysInMonth y m) : daysBeforeMonth y m + (d - 1) < daysInYear y := by
  have h1 : daysBeforeMonth y m + daysInMonth y m = daysBeforeMonth y (m + 1) :=
    (daysBeforeMonth_succ y hm1).symm
  have h2 : daysBeforeMonth y (m + 1) ≤ daysBeforeMonth y 13 :=
    daysBeforeMonth_mono y (by omega) (by omega)
  rw [daysBeforeMonth_thirteen] at h2
  omega

/-! ## The day-number / civil-date correspondence -/

theorem yearFromDays_spec (fuel : ℕ) : ∀ (y₀ n : ℕ) {y k : ℕ}, y₀ ≤ y → k < daysInYear y →
    daysBeforeYear y₀ + n = daysBeforeYear y + k → y < y₀ + fuel →
    yearFromDays fuel y₀ n = (y, k) := by
  induction fuel with
  | zero =>
    intro y₀ n y k hy _ _ hfuel
    omega
  | succ fuel ih =>
    intro y₀ n y k hy hk hn hfuel
    simp only [yearFromDays]
    by_cases heq : y₀ = y
    · subst heq
      have hnk : n = k := by omega
      rw [if_pos (hnk ▸ hk), hnk]
    · have hlt : y₀ < y := lt_of_le_of_ne hy heq
      have hstep := daysBeforeYear_succ y₀
      have hmono := daysBeforeYear_mono (show y₀ + 1 ≤ y by omega)
      rw [if_neg (by omega)]
      exact ih (y₀ + 1) (n - daysInYear y₀) (by omega) hk (by omega) (by omega)

theorem yearFromDays_inv (fuel : ℕ) : ∀ (y₀ n : ℕ), n < 365 * fuel →
    y₀ ≤ (yearFromDays fuel y₀ n).1
    ∧ daysBeforeYear y₀ + n =
        daysBeforeYear (yearFromDays fuel y₀ n).1 + (yearFromDays fuel y₀ n).2
    ∧ (yearFromDays fuel y₀ n).2 < daysInYear (yearFromDays fuel y₀ n).1 := by
  induction fuel with
  | zero =>
    intro y₀ n hn
    omega
  | succ fuel ih =>
    intro y₀ n hn
    simp only [yearFromDays]
    by_cases h : n < daysInYear y₀
    · rw [if_pos h]
      exact ⟨le_rfl, rfl, h⟩
    · rw [if_neg h]
      have hge := daysInYear_ge y₀
      have hle := daysInYear_le y₀
      obtain ⟨h1, h2, h3⟩ := ih (y₀ + 1) (n - daysInYear y₀) (by omega)
      have hstep := daysBeforeYear_succ y₀
      exact ⟨by omega, by omega, h3⟩

theorem monthFromDoy_spec (fuel : ℕ) : ∀ (y m₀ r : ℕ) {m j : ℕ}, 1 ≤ m₀ → m₀ ≤ m → m ≤ 12 →
    j < daysInMonth y m → daysBeforeMonth y m₀ + r = daysBeforeMonth y m + j →
    m < m₀ + fuel → monthFromDoy fuel y m₀ r = (m, j) := by
  induction fuel with
  | zero =>
    intro y m₀ r m j _ hm _ _ _ hfuel
    omega
  | succ fuel ih =>
    intro y m₀ r m j hm0 hm hm12 hj hr hfuel
    simp only [monthFromDoy]
    by_cases heq : m₀ = m
    · subst heq
      have hrj : r = j := by omega
      rw [if_pos (hrj ▸ hj), hrj]
    · have hlt : m₀ < m := lt_of_le_of_ne hm heq
      have hstep := daysBeforeMonth_succ y hm0
      have hmono := daysBeforeMonth_mono y (show 1 ≤ m₀ + 1 by omega) (show m₀ + 1 ≤ m by omega)
      rw [if_neg (by omega)]
      exact ih y (m₀ + 1) (r - daysInMonth y m₀) (by omega) (by omega) hm12 hj (by omega) (by omega)

theorem monthFromDoy_inv (fuel : ℕ) : ∀ (y m₀ r : ℕ), 1 ≤ m₀ → m₀ ≤ 13 →
    daysBeforeMonth y m₀ + r < daysInYear y → 13 ≤ m₀ + fuel →
    1 ≤ (monthFromDoy fuel y m₀ r).1
    ∧ (monthFromDoy fuel y m₀ r).1 ≤ 12
    ∧ daysBeforeMonth y m₀ + r =
        daysBeforeMonth y (monthFromDoy fuel y m₀ r).1 + (monthFromDoy fuel y m₀ r).2
    ∧ (monthFromDoy fuel y m₀ r).2 < daysInMonth y (monthFromDoy fuel y m₀ r).1 := by
  induction fuel with
  | zero =>
    intro y m₀ r hm0 hm13 hr hfuel
    exfalso
    have hm : m₀ = 13 := by omega
    rw [hm, daysBeforeMonth_thirteen] at hr
    omega
  | succ fuel ih =>
    intro y m₀ r hm0 hm13 hr hfuel
    have hm12 : m₀ ≤ 12 := by
      by_contra hgt
      have hm : m₀ = 13 := by omega
      rw [hm, daysBeforeMonth_thirteen] at hr
      omega
    simp only [monthFromDoy]
    by_cases h : r < daysInMonth y m₀
    · rw [if_pos h]
      exact ⟨hm0, hm12, rfl, h⟩
    · rw [if_neg h]
      have hstep := daysBeforeMonth_succ y hm0
      obtain ⟨h1, h2, h3, h4⟩ := ih y (m₀ + 1) (r - daysInMonth y m₀)
        (by omega) (by omega) (by omega) (by omega)
      exact ⟨by omega, h2, by omega, h4⟩

theorem daysBeforeYear_hint_le (n : ℕ) : daysBeforeYear (n / 366) ≤ n := by
  have h := daysBeforeYear_upper (n / 366)
  have h2 : 366 * (n / 366) ≤ n := by omega
  omega

/-- The civil date of the day number of a valid date is that date. -/
theorem civilFromDays_dayNumber (y m d : ℕ) (hm1 : 1 ≤ m) (hm2 : m ≤ 12)
    (hd1 : 1 ≤ d) (hd2 : d ≤ daysInMonth y m) :
    civilFromDays ((dayNumber y m d : ℕ) : ℤ) = ⟨y, m, d⟩ := by
  have hdoy := doy_lt_daysInYear y m d hm1 hm2 hd1 hd2
  have hdef : dayNumber y m d = daysBeforeYear y + (daysBeforeMonth y m + (d - 1)) := by
    rw [dayNumber]
    omega
  have hhint := daysBeforeYear_hint_le (dayNumber y m d)
  have hylow := daysBeforeYear_lower y
  have hy0le : dayNumber y m d / 366 ≤ y := by
    by_contra hgt
    have hy1 : y + 1 ≤ dayNumber y m d / 366 := by omega
    have hmono := daysBeforeYear_mono hy1
    have hstep := daysBeforeYear_succ y
    have hyle := daysInYear_le y
    omega
  have hyf : yearFromDays (dayNumber y m d + 1) (dayNumber y m d / 366)
      (dayNumber y m d - daysBeforeYear (dayNumber y m d / 366)) =
      (y, daysBeforeMonth y m + (d - 1)) := by
    apply yearFromDays_spec _ _ _ hy0le hdoy (by omega) (by omega)
  have hmf : monthFromDoy 12 y 1 (daysBeforeMonth y m + (d - 1)) = (m, d - 1) := by
    apply monthFromDoy_spec _ _ _ _ le_rfl hm1 hm2 (by omega) ?h12 (by omega)
    show daysBeforeMonth y 1 + (daysBeforeMonth y m + (d - 1)) = daysBeforeMonth y m + (d - 1)
    rw [show daysBeforeMonth y 1 = 0 from rfl]
    omega
  simp only [civilFromDays, Int.toNat_ofNat, hyf, hmf]
  congr 1
  omega

/-- The civil date of any in-range day number is valid, has a
four-digit-formattable year, and recovers the day number. -/
theorem civilFromDays_inv (n : ℕ) (hn : n < daysBeforeYear 10000) :
    ValidCivil (civilFromDays (n : ℤ))
    ∧ (civilFromDays (n : ℤ)).year ≤ 9999
    ∧ dayNumber (civilFromDays (n : ℤ)).year (civilFromDays (n : ℤ)).month
        (civilFromDays (n : ℤ)).day = n := by
  have hhint := daysBeforeYear_hint_le n
  obtain ⟨h1, h2, h3⟩ := yearFromDays_inv (n + 1) (n / 366)
    (n - daysBeforeYear (n / 366)) (by omega)
  obtain ⟨g1, g2, g3, g4⟩ := monthFromDoy_inv 12
    (yearFromDays (n + 1) (n / 366) (n - daysBeforeYear (n / 366))).1 1
    (yearFromDays (n + 1) (n / 366) (n - daysBeforeYear (n / 366))).2
    le_rfl (by omega)
    (by
      show daysBeforeMonth _ 1 + _ < _
      rw [show ∀ yy : ℕ, daysBeforeMonth yy 1 = 0 from fun _ => rfl]
      omega)
    (by omega)
  have hyear : (yearFromDays (n + 1) (n / 366) (n - daysBeforeYear (n / 366))).1 ≤ 9999 := by
    by_contra hgt
    have h10000 : 10000 ≤ (yearFromDays (n + 1) (n / 366) (n - daysBeforeYear (n / 366))).1 := by
      omega
    have := daysBeforeYear_mono h10000
    omega
  simp only [civilFromDays, Int.toNat_ofNat, ValidCivil]
  rw [show ∀ yy : ℕ, daysBeforeMonth yy 1 = 0 from fun _ => rfl] at g3
  refine ⟨⟨g1, g2, by omega, by omega⟩, hyear, ?_⟩
  rw [dayNumber]
  omega

theorem daysInMonth_le (y m : ℕ) : daysInMonth y m ≤ 31 := by
  rw [daysInMonth]
  split_ifs <;> omega

theorem charDigit_digitChar {a : ℕ} (h : a < 10) : charDigit (Nat.digitChar a) = a := by
  rw [charDigit, digitChar_toNat h]
  omega

/-- Formatting a valid date with a four-digit year and parsing it back is
the identity. -/
theorem parseIsoDate_formatCivil (y m d : ℕ) (hm1 : 1 ≤ m) (hm2 : m ≤ 12)
    (hd1 : 1 ≤ d) (hd2 : d ≤ daysInMonth y m) (hy : y ≤ 9999) :
    parseIsoDate (formatCivil ⟨y, m, d⟩) = some ⟨y, m, d⟩ := by
  have hd31 : d ≤ 31 := le_trans hd2 (daysInMonth_le y m)
  have q1 : y / 1000 % 10 < 10 := Nat.mod_lt _ (by norm_num)
  have q2 : y / 100 % 10 < 10 := Nat.mod_lt _ (by norm_num)
  have q3 : y / 10 % 10 < 10 := Nat.mod_lt _ (by norm_num)
  have q4 : y % 10 < 10 := Nat.mod_lt _ (by norm_num)
  have q5 : m / 10 < 10 := by omega
  have q6 : m % 10 < 10 := Nat.mod_lt _ (by norm_num)
  have q7 : d / 10 < 10 := by omega
  have q8 : d % 10 < 10 := Nat.mod_lt _ (by norm_num)
  have hdata : (formatCivil ⟨y, m, d⟩).data =
      [Nat.digitChar (y / 1000 % 10), Nat.digitChar (y / 100 % 10),
       Nat.digitChar (y / 10 % 10), Nat.digitChar (y % 10), '-',
       Nat.digitChar (m / 10), Nat.digitChar (m % 10), '-',
       Nat.digitChar (d / 10), Nat.digitChar (d % 10)] := rfl
  rw [parseIsoDate, hdata]
  simp only [digitChar_isDigit q1, digitChar_isDigit q2, digitChar_isDigit q3,
    digitChar_isDigit q4, digitChar_isDigit q5, digitChar_isDigit q6,
    digitChar_isDigit q7, digitChar_isDigit q8, charDigit_digitChar q1,
    charDigit_digitChar q2, charDigit_digitChar q3, charDigit_digitChar q4,
    charDigit_digitChar q5, charDigit_digitChar q6, charDigit_digitChar q7,
    charDigit_digitChar q8, decide_True, Bool.and_self, Bool.true_and, if_true,
    decide_eq_true_eq]
  have hyv : ((y / 1000 % 10 * 10 + y / 100 % 10) * 10 + y / 10 % 10) * 10 + y % 10 = y := by
    omega
  have hmv : m / 10 * 10 + m % 10 = m := by omega
  have hdv : d / 10 * 10 + d % 10 = d := by omega
  rw [hyv, hmv, hdv, if_pos ⟨hm1, hm2, hd1, hd2⟩]

theorem dayNumber_day_shift (y m d : ℕ) (hd : 1 ≤ d) :
    (dayNumber y m 1 : ℤ) + (d : ℤ) - 1 = (dayNumber y m d : ℤ) := by
  simp only [dayNumber]
  omega

/-- Under a fixed-offset timezone, shifting a valid date by `delta` days
yields the timestamp of the calendar date `delta` days away: the local
calendar day and the UTC calendar day advance together when no DST
transition can intervene. -/
theorem jsShiftDay_fixedTz (cofs : ℤ) (hc1 : -1440 < cofs) (hc2 : cofs < 1440) (delta : ℤ)
    (y m d : ℕ) (hm1 : 1 ≤ m) (hm2 : m ≤ 12) (hd1 : 1 ≤ d) (hd2 : d ≤ daysInMonth y m)
    (hy : y ≤ 9999) (hpos : 1 ≤ dayNumber y m d) :
    jsShiftDay (fixedTz cofs) delta (formatCivil ⟨y, m, d⟩) =
      some (formatDate (1440 * ((dayNumber y m d : ℤ) + delta))) := by
  rw [jsShiftDay, jsParseDateUTC, parseIsoDate_formatCivil y m d hm1 hm2 hd1 hd2 hy]
  simp only [Option.map_some', fixedTz, Option.some.injEq]
  have hN1 : (1 : ℤ) ≤ (dayNumber y m d : ℤ) := by exact_mod_cast hpos
  by_cases hc0 : 0 ≤ cofs
  · have hdiv : (1440 * (dayNumber y m d : ℤ) + cofs).fdiv 1440 = (dayNumber y m d : ℤ) := by
      rw [Int.fdiv_eq_ediv _ (by norm_num)]
      omega
    have hmod : (1440 * (dayNumber y m d : ℤ) + cofs).emod 1440 = cofs := by
      show (1440 * (dayNumber y m d : ℤ) + cofs) % 1440 = cofs
      omega
    rw [hdiv, hmod, civilFromDays_dayNumber y m d hm1 hm2 hd1 hd2]
    have harith : 1440 * ((dayNumber y m 1 : ℤ) + ((⟨y, m, d⟩ : Civil).day + delta) - 1)
        + cofs - cofs = 1440 * ((dayNumber y m d : ℤ) + delta) := by
      show 1440 * ((dayNumber y m 1 : ℤ) + ((d : ℤ) + delta) - 1) + cofs - cofs = _
      have hd1' : (dayNumber y m 1 : ℤ) + (d : ℤ) - 1 = (dayNumber y m d : ℤ) :=
        dayNumber_day_shift y m d hd1
      ring_nf
      ring_nf at hd1'
      omega
    rw [harith]
  · have hdiv : (1440 * (dayNumber y m d : ℤ) + cofs).fdiv 1440 =
        (dayNumber y m d : ℤ) - 1 := by
      rw [Int.fdiv_eq_ediv _ (by norm_num)]
      omega
    have hmod : (1440 * (dayNumber y m d : ℤ) + cofs).emod 1440 = 1440 + cofs := by
      show (1440 * (dayNumber y m d : ℤ) + cofs) % 1440 = 1440 + cofs
      omega
    have hup : dayNumber y m d - 1 < daysBeforeYear 10000 := by
      have hdoy := doy_lt_daysInYear y m d hm1 hm2 hd1 hd2
      have hstep := daysBeforeYear_succ y
      have hmono := daysBeforeYear_mono (show y + 1 ≤ 10000 by omega)
      simp only [dayNumber]
      omega
    obtain ⟨hv', hy9', hdn'⟩ := civilFromDays_inv (dayNumber y m d - 1) hup
    have hcast : (1440 * (dayNumber y m d : ℤ) + cofs).fdiv 1440 =
        ((dayNumber y m d - 1 : ℕ) : ℤ) := by
      rw [hdiv]
      omega
    rw [hcast, hmod]
    obtain ⟨hvm1, hvm2, hvd1, hvd2⟩ := hv'
    set c' := civilFromDays ((dayNumber y m d - 1 : ℕ) : ℤ) with hc'
    have harith : 1440 * ((dayNumber c'.year c'.month 1 : ℤ) + ((c'.day : ℤ) + delta) - 1)
        + (1440 + cofs) - cofs = 1440 * ((dayNumber y m d : ℤ) + delta) := by
      have hkey : (dayNumber c'.year c'.month 1 : ℤ) + ((c'.day : ℤ)) - 1
          = (dayNumber y m d : ℤ) - 1 := by
        rw [dayNumber_day_shift c'.year c'.month c'.day hvd1]
        omega
      ring_nf
      ring_nf at hkey
      omega
    rw [harith]

/-- **C3** (code bug, evaluated).  In a host timezone with DST rules — here
Europe/Vienna, the application's own region — the day-step functions do not
perform calendar arithmetic: stepping forward from the 2025 spring-forward
date returns the *same* date, and stepping back from the day after the 2025
fall-back date *skips* a day.  Under a DST-less fixed offset the very same
code steps correctly (last two conjuncts), isolating the slip: the code
parses the date as UTC (`new Date("YYYY-MM-DD")`) but mutates it in local
time (`getDate`/`setDate`), so a DST transition between the two shifts the
UTC day by the offset change. -/
theorem claim_C3 :
    getNextDay viennaTz2025 "2025-03-30" = some "2025-03-30"
    ∧ getPreviousDay viennaTz2025 "2025-10-27" = some "2025-10-25"
    ∧ getNextDay (fixedTz 60) "2025-03-30" = some "2025-03-31"
    ∧ getPreviousDay (fixedTz 60) "2025-10-27" = some "2025-10-26" := by
  exact ⟨by decide, by decide, by decide, by decide⟩

/-- **C9** fails on the code as stated: in the Vienna timezone the
round-trip `getNextDay (getPreviousDay d)` lands two days early around the
fall-back date. -/
theorem claim_C9_counterexample :
    (getPreviousDay viennaTz2025 "2025-10-27").bind (getNextDay viennaTz2025)
      = some "2025-10-26"
    ∧ ¬ ((getPreviousDay viennaTz2025 "2025-10-27").bind (getNextDay viennaTz2025)
      = some "2025-10-27") := by
  exact ⟨by decide, by decide⟩

/-- **C9** (amended).  Both day-step round-trips are the identity on every
valid `"YYYY-MM-DD"` date with year in `[1, 9998]`, *provided the host
timezone applies a fixed UTC offset* (no DST) — the restriction forced by
`claim_C9_counterexample`.  The year bounds only keep the neighbouring
dates inside the four-digit `YYYY-MM-DD` formatting regime. -/
theorem claim_C9 (cofs : ℤ) (hc1 : -1440 < cofs) (hc2 : cofs < 1440)
    (y m d : ℕ) (hy1 : 1 ≤ y) (hy2 : y ≤ 9998)
    (hm1 : 1 ≤ m) (hm2 : m ≤ 12) (hd1 : 1 ≤ d) (hd2 : d ≤ daysInMonth y m) :
    (getPreviousDay (fixedTz cofs) (formatCivil ⟨y, m, d⟩)).bind
        (getNextDay (fixedTz cofs)) = some (formatCivil ⟨y, m, d⟩)
    ∧ (getNextDay (fixedTz cofs) (formatCivil ⟨y, m, d⟩)).bind
        (getPreviousDay (fixedTz cofs)) = some (formatCivil ⟨y, m, d⟩) := by
  have hylow := daysBeforeYear_lower y
  have hdoy := doy_lt_daysInYear y m d hm1 hm2 hd1 hd2
  have hstep := daysBeforeYear_succ y
  have hstep9 : daysBeforeYear 10000 = daysBeforeYear 9999 + daysInYear 9999 :=
    daysBeforeYear_succ 9999
  have hmono9 := daysBeforeYear_mono (show y + 1 ≤ 9999 by omega)
  have hge9 := daysInYear_ge 9999
  have hn365 : 365 ≤ dayNumber y m d := by
    simp only [dayNumber]
    omega
  have hnup : dayNumber y m d + 1 < daysBeforeYear 10000 := by
    simp only [dayNumber]
    omega
  have hfdiv : ∀ N : ℤ, (1440 * N).fdiv 1440 = N := by
    intro N
    rw [Int.fdiv_eq_ediv _ (by norm_num)]
    omega
  constructor
  · rw [getPreviousDay, jsShiftDay_fixedTz cofs hc1 hc2 (-1) y m d hm1 hm2 hd1 hd2
      (by omega) (by omega)]
    rw [formatDate, hfdiv]
    have hcast : (dayNumber y m d : ℤ) + (-1) = ((dayNumber y m d - 1 : ℕ) : ℤ) := by
      omega
    rw [hcast, Option.some_bind]
    obtain ⟨⟨gm1, gm2, gd1, gd2⟩, gy9, gdn⟩ :=
      civilFromDays_inv (dayNumber y m d - 1) (by omega)
    rw [getNextDay, jsShiftDay_fixedTz cofs hc1 hc2 1
      (civilFromDays ((dayNumber y m d - 1 : ℕ) : ℤ)).year
      (civilFromDays ((dayNumber y m d - 1 : ℕ) : ℤ)).month
      (civilFromDays ((dayNumber y m d - 1 : ℕ) : ℤ)).day
      gm1 gm2 gd1 gd2 gy9 (by omega)]
    rw [gdn]
    have hcast2 : ((dayNumber y m d - 1 : ℕ) : ℤ) + 1 = ((dayNumber y m d : ℕ) : ℤ) := by
      omega
    rw [hcast2, formatDate, hfdiv, civilFromDays_dayNumber y m d hm1 hm2 hd1 hd2]
  · rw [getNextDay, jsShiftDay_fixedTz cofs hc1 hc2 1 y m d hm1 hm2 hd1 hd2
      (by omega) (by omega)]
    rw [formatDate, hfdiv]
    have hcast : (dayNumber y m d : ℤ) + 1 = ((dayNumber y m d + 1 : ℕ) : ℤ) := by
      omega
    rw [hcast, Option.some_bind]
    obtain ⟨⟨gm1, gm2, gd1, gd2⟩, gy9, gdn⟩ :=
      civilFromDays_inv (dayNumber y m d + 1) (by omega)
    rw [getPreviousDay, jsShiftDay_fixedTz cofs hc1 hc2 (-1)
      (civilFromDays ((dayNumber y m d + 1 : ℕ) : ℤ)).year
      (civilFromDays ((dayNumber y m d + 1 : ℕ) : ℤ)).month
      (civilFromDays ((dayNumber y m d + 1 : ℕ) : ℤ)).day
      gm1 gm2 gd1 gd2 gy9 (by omega)]
    rw [gdn]
    have hcast2 : ((dayNumber y m d + 1 : ℕ) : ℤ) + (-1) = ((dayNumber y m d : ℕ) : ℤ) := by
      omega
    rw [hcast2, formatDate, hfdiv, civilFromDays_dayNumber y m d hm1 hm2 hd1 hd2]

/-- Witness for `claim_C9`: the round-trip through the previous day is the
identity at 2025-03-30 under the fixed offset +60 (CET without DST). -/
theorem claim_C9_witness :
    ((1 : ℕ) ≤ 2025 ∧ (30 : ℕ) ≤ daysInMonth 2025 3) ∧
      (getPreviousDay (fixedTz 60) (formatCivil ⟨2025, 3, 30⟩)).bind
        (getNextDay (fixedTz 60)) = some (formatCivil ⟨2025, 3, 30⟩) :=
  ⟨by decide, (claim_C9 60 (by decide) (by decide) 2025 3 30 (by decide) (by decide)
    (by decide) (by decide) (by decide) (by decide)).1⟩
